import Mathlib

/-!
Shallow embedding of the delivery-plan assignment program (`src/main.rs`).

The program stores a plan as `HashMap<u32, Vec<u64>>` mapping a rider id to
the ordered sequence of order ids assigned to that rider.  We embed the map
as an association list `List (Nat × List Nat)` whose list order represents
the (unspecified) iteration order of the hash map; ids become `Nat` (they
are only ever compared for equality, never arithmetically modified).

`compute_plan` in the source is an unbounded `loop` whose only exit sits
inside a `for` pass over the riders; we embed the loop with an explicit
fuel argument counting outer-loop iterations.  `none` means the loop has
not returned within that many passes.  `computePlanFuel_spec` below shows
that for a non-empty rider list the fuel `orders.length + 1` always
suffices, so the embedding is total exactly where the source terminates,
and `computePlanFuel_nil` shows that at rider list `[]` no fuel bound ever
returns, which is the source's non-termination.
-/

/-- A plan: rider id mapped to its ordered sequence of order ids, written
as an association list in hash-map iteration order (`type Plan = HashMap<u32, Vec<u64>>`). -/
abbrev Plan := List (Nat × List Nat)

/-- Model of `plan.entry(k).or_default().push(v)`: push `v` onto the sequence
of the entry with key `k`, inserting a fresh entry if the key is absent. -/
def entryPush : Plan → Nat → Nat → Plan
  | [], k, v => [(k, [v])]
  | (k', vs) :: rest, k, v =>
    if k' = k then (k', vs ++ [v]) :: rest else (k', vs) :: entryPush rest k v

/-- One execution of the inner `for rider_idx in 0..riders.len()` pass of
`compute_plan`: assign the next orders to the riders of the pass in turn.
`Sum.inl plan` models the `return plan` statement firing (orders exhausted,
checked at the top of each rider iteration); `Sum.inr` is the state at the
end of a completed pass. -/
def innerPass : List Nat → List Nat → Plan → Plan ⊕ (Plan × List Nat)
  | [], os, plan => Sum.inr (plan, os)
  | _ :: _, [], plan => Sum.inl plan
  | r :: rs, o :: os, plan => innerPass rs os (entryPush plan r o)

/-- The unbounded `loop` of `compute_plan`, with fuel counting outer
iterations; `none` means the loop has not returned within the bound. -/
def computePlanFuel (riders : List Nat) : Nat → List Nat → Plan → Option Plan
  | 0, _, _ => none
  | fuel + 1, os, plan =>
    match innerPass riders os plan with
    | Sum.inl done => some done
    | Sum.inr (plan2, os2) => computePlanFuel riders fuel os2 plan2

/-- `fn compute_plan(riders, orders) -> Plan` (third, active implementation):
round-robin distribution via the nested loop.  Fuel `orders.length + 1`
is sufficient whenever the source loop terminates. -/
def compute_plan (riders orders : List Nat) : Option Plan :=
  computePlanFuel riders (orders.length + 1) orders []

/-- Flattened recursion equivalent of the nested loop for non-empty rider
lists: the order at running position `i` is pushed to the rider at input
position `i % riders.length`. -/
def assignOrders (riders : List Nat) : Nat → List Nat → Plan → Plan
  | _, [], plan => plan
  | i, o :: os, plan =>
    assignOrders riders (i + 1) os (entryPush plan (riders.getD (i % riders.length) 0) o)

/-- The (target rider, order) pairs produced by round robin starting at
running position `i`. -/
def rrTargets (riders : List Nat) : Nat → List Nat → List (Nat × Nat)
  | _, [] => []
  | i, o :: os => (riders.getD (i % riders.length) 0, o) :: rrTargets riders (i + 1) os

/-- Model of `plan.get(&k)` / `plan[&k]`: the sequence of the first entry
with key `k`. -/
def lookupSeq : Plan → Nat → Option (List Nat)
  | [], _ => none
  | (k', vs) :: rest, k => if k' = k then some vs else lookupSeq rest k

/-- The sequence held by rider `k`, defaulting to the empty sequence when
the rider is not a key of the plan. -/
def lookupD (plan : Plan) (k : Nat) : List Nat :=
  (lookupSeq plan k).getD []

/-- All order ids of the plan in iteration order (`plan.values().flatten()`). -/
def planOrders (plan : Plan) : List Nat :=
  (plan.map Prod.snd).flatten

/-- Model of `plan.get_mut(&k).map(|s| ... )`: rewrite the sequence of the
first entry with key `k` by `f`, leaving everything else in place. -/
def updateSeq : Plan → Nat → (List Nat → List Nat) → Plan
  | [], _, _ => []
  | (k', vs) :: rest, k, f =>
    if k' = k then (k', f vs) :: rest else (k', vs) :: updateSeq rest k f

/-- Model of `plan.iter_mut().find(|(id, _)| **id != rider_id)`: the first
entry in iteration order whose key differs from `r`. -/
def findOther : Plan → Nat → Option (Nat × List Nat)
  | [], _ => none
  | (k, vs) :: rest, r => if k = r then findOther rest r else some (k, vs)

/-- Model of `if let Some((_, orders)) = plan.iter_mut().find(...) { orders.push(x) }`:
append `x` to the sequence of the first entry whose key differs from `r`,
a no-op when every entry has key `r`. -/
def pushToOther : Plan → Nat → Nat → Plan
  | [], _, _ => []
  | (k, vs) :: rest, r, x =>
    if k = r then (k, vs) :: pushToOther rest r x else (k, vs ++ [x]) :: rest

/-- `enum Event` of the source. -/
inductive Event where
  | RiderRejected (rider_id : Nat) (order_id : Nat)
  | OrderCanceled (order_id : Nat)

/-- The order id carried by an event. -/
def eventOrder : Event → Nat
  | .RiderRejected _ x => x
  | .OrderCanceled x => x

/-- `fn process_event(plan, event) -> Plan` (second, active implementation of
the `RiderRejected` arm): on rejection, if the rider holds the order, erase
its first occurrence from that rider's sequence and push it onto the first
other rider found in iteration order; on cancellation, retain only the
other orders in every sequence. -/
def process_event (plan : Plan) : Event → Plan
  | .RiderRejected rider_id order_id =>
    match lookupSeq plan rider_id with
    | none => plan
    | some orders =>
      if order_id ∈ orders then
        pushToOther (updateSeq plan rider_id (fun s => s.erase order_id)) rider_id order_id
      else plan
  | .OrderCanceled order_id =>
    plan.map (fun e => (e.1, e.2.filter (fun v => v != order_id)))

/-- The fairness invariant: any two riders of the plan hold sequence lengths
differing by at most one. -/
abbrev FairPlan (plan : Plan) : Prop :=
  ∀ e1 ∈ plan, ∀ e2 ∈ plan, e1.2.length ≤ e2.2.length + 1

/-! ### Basic association-list lemmas -/

theorem lookupSeq_entryPush_self (plan : Plan) (k v : Nat) :
    lookupSeq (entryPush plan k v) k = some (lookupD plan k ++ [v]) := by
  induction plan with
  | nil => simp [entryPush, lookupSeq, lookupD]
  | cons e rest ih =>
    obtain ⟨k', vs⟩ := e
    by_cases h : k' = k
    · simp [entryPush, lookupSeq, lookupD, h]
    · simp [entryPush, lookupSeq, lookupD, h, ih]

theorem lookupSeq_entryPush_ne (plan : Plan) {k k' : Nat} (h : k' ≠ k) (v : Nat) :
    lookupSeq (entryPush plan k v) k' = lookupSeq plan k' := by
  induction plan with
  | nil => simp [entryPush, lookupSeq, Ne.symm h]
  | cons e rest ih =>
    obtain ⟨k0, vs⟩ := e
    by_cases h0 : k0 = k
    · rw [entryPush, if_pos h0, lookupSeq, lookupSeq]
      have hne : k0 ≠ k' := by rw [h0]; exact Ne.symm h
      rw [if_neg hne, if_neg hne]
    · rw [entryPush, if_neg h0, lookupSeq, lookupSeq]
      by_cases h1 : k0 = k'
      · rw [if_pos h1, if_pos h1]
      · rw [if_neg h1, if_neg h1, ih]

theorem keys_entryPush (plan : Plan) (k v : Nat) :
    (entryPush plan k v).map Prod.fst =
      if k ∈ plan.map Prod.fst then plan.map Prod.fst else plan.map Prod.fst ++ [k] := by
  induction plan with
  | nil => simp [entryPush]
  | cons e rest ih =>
    obtain ⟨k', vs⟩ := e
    by_cases h : k' = k
    · simp [entryPush, h]
    · simp only [entryPush, if_neg h, List.map_cons, ih, List.mem_cons]
      by_cases hk : k ∈ rest.map Prod.fst
      · simp [hk, Ne.symm h]
      · simp [hk, Ne.symm h]

theorem nonempty_entryPush {plan : Plan} (h : ∀ e ∈ plan, e.2 ≠ []) (k v : Nat) :
    ∀ e ∈ entryPush plan k v, e.2 ≠ [] := by
  induction plan with
  | nil => simp [entryPush]
  | cons e0 rest ih =>
    obtain ⟨k', vs⟩ := e0
    have hrest : ∀ e ∈ rest, e.2 ≠ [] := fun e he => h e (List.mem_cons_of_mem _ he)
    have hhead : vs ≠ [] := h (k', vs) (List.mem_cons_self _ _)
    by_cases hk : k' = k
    · intro e he
      rw [entryPush, if_pos hk] at he
      rcases List.mem_cons.1 he with h1 | h1
      · subst h1; simp
      · exact hrest e h1
    · intro e he
      rw [entryPush, if_neg hk] at he
      rcases List.mem_cons.1 he with h1 | h1
      · subst h1; exact hhead
      · exact ih hrest e h1

theorem planOrders_nil : planOrders [] = [] := by
  simp [planOrders]

theorem planOrders_cons (k : Nat) (vs : List Nat) (rest : Plan) :
    planOrders ((k, vs) :: rest) = vs ++ planOrders rest := by
  simp [planOrders]

theorem planOrders_entryPush (plan : Plan) (k v : Nat) :
    List.Perm (planOrders (entryPush plan k v)) (planOrders plan ++ [v]) := by
  induction plan with
  | nil => simp [entryPush, planOrders]
  | cons e rest ih =>
    obtain ⟨k', vs⟩ := e
    by_cases h : k' = k
    · rw [entryPush, if_pos h, planOrders_cons, planOrders_cons,
        List.append_assoc, List.append_assoc]
      exact List.perm_append_comm.append_left vs
    · rw [entryPush, if_neg h, planOrders_cons, planOrders_cons, List.append_assoc]
      exact ih.append_left vs

/-! ### Characterization of `assignOrders` -/

theorem lookupD_assignOrders (R : List Nat) :
    ∀ (os : List Nat) (i : Nat) (plan : Plan) (k : Nat),
      lookupD (assignOrders R i os plan) k =
        lookupD plan k ++ ((rrTargets R i os).filter (fun e => e.1 == k)).map Prod.snd := by
  intro os
  induction os with
  | nil => intro i plan k; simp [assignOrders, rrTargets]
  | cons o os ih =>
    intro i plan k
    rw [assignOrders, rrTargets, ih]
    by_cases h : R.getD (i % R.length) 0 = k
    · rw [h]
      have e := lookupSeq_entryPush_self plan k o
      simp only [lookupD] at e ⊢
      rw [e, Option.getD_some, List.filter_cons]
      simp [List.append_assoc]
    · have e := lookupSeq_entryPush_ne plan (Ne.symm h) o
      have hb : ((R.getD (i % R.length) 0, o).1 == k) = false := by
        simpa using h
      simp only [lookupD, e, List.filter_cons, hb]
      simp

theorem memKeys_assignOrders (R : List Nat) :
    ∀ (os : List Nat) (i : Nat) (plan : Plan) (k : Nat),
      k ∈ (assignOrders R i os plan).map Prod.fst ↔
        k ∈ plan.map Prod.fst ∨ k ∈ (rrTargets R i os).map Prod.fst := by
  intro os
  induction os with
  | nil => intro i plan k; simp [assignOrders, rrTargets]
  | cons o os ih =>
    intro i plan k
    rw [assignOrders, rrTargets, ih]
    rw [keys_entryPush]
    by_cases hk : R.getD (i % R.length) 0 ∈ plan.map Prod.fst
    · simp only [if_pos hk, List.map_cons, List.mem_cons]
      constructor
      · rintro (h | h)
        · exact Or.inl h
        · exact Or.inr (Or.inr h)
      · rintro (h | h | h)
        · exact Or.inl h
        · exact Or.inl (h ▸ hk)
        · exact Or.inr h
    · simp only [if_neg hk, List.mem_append, List.map_cons, List.mem_cons,
        List.mem_singleton]
      tauto

theorem keysNodup_assignOrders (R : List Nat) :
    ∀ (os : List Nat) (i : Nat) (plan : Plan),
      (plan.map Prod.fst).Nodup → ((assignOrders R i os plan).map Prod.fst).Nodup := by
  intro os
  induction os with
  | nil => intro i plan h; simpa [assignOrders] using h
  | cons o os ih =>
    intro i plan h
    rw [assignOrders]
    apply ih
    rw [keys_entryPush]
    by_cases hk : R.getD (i % R.length) 0 ∈ plan.map Prod.fst
    · simpa [if_pos hk] using h
    · rw [if_neg hk]
      refine List.Nodup.append h (List.nodup_singleton _) ?_
      intro a ha hb
      rw [List.mem_singleton] at hb
      exact hk (hb ▸ ha)

theorem nonempty_assignOrders (R : List Nat) :
    ∀ (os : List Nat) (i : Nat) (plan : Plan),
      (∀ e ∈ plan, e.2 ≠ []) → ∀ e ∈ assignOrders R i os plan, e.2 ≠ [] := by
  intro os
  induction os with
  | nil => intro i plan h; simpa [assignOrders] using h
  | cons o os ih =>
    intro i plan h
    rw [assignOrders]
    exact ih _ _ (nonempty_entryPush h _ _)

theorem planOrders_assignOrders (R : List Nat) :
    ∀ (os : List Nat) (i : Nat) (plan : Plan),
      List.Perm (planOrders (assignOrders R i os plan)) (planOrders plan ++ os) := by
  intro os
  induction os with
  | nil => intro i plan; simp [assignOrders]
  | cons o os ih =>
    intro i plan
    rw [assignOrders]
    refine (ih _ _).trans ?_
    have h1 := (planOrders_entryPush plan (R.getD (i % R.length) 0) o).append_right os
    refine h1.trans ?_
    rw [List.append_assoc]
    simp

theorem rrTargets_eq_range (R : List Nat) :
    ∀ (os : List Nat) (i : Nat),
      rrTargets R i os =
        (List.range os.length).map
          (fun t => (R.getD ((i + t) % R.length) 0, os.getD t 0)) := by
  intro os
  induction os with
  | nil => intro i; simp [rrTargets]
  | cons o os ih =>
    intro i
    rw [rrTargets, ih (i + 1)]
    rw [List.length_cons, List.range_succ_eq_map]
    rw [List.map_cons, List.map_map]
    refine congrArg₂ _ (by simp) (List.map_congr_left ?_)
    intro t _
    have h1 : i + 1 + t = i + (t + 1) := by omega
    simp [Function.comp, h1]

/-! ### The nested loop of `compute_plan` computes `assignOrders` -/

theorem assignOrders_append (R : List Nat) :
    ∀ (os1 os2 : List Nat) (i : Nat) (plan : Plan),
      assignOrders R i (os1 ++ os2) plan =
        assignOrders R (i + os1.length) os2 (assignOrders R i os1 plan) := by
  intro os1
  induction os1 with
  | nil => intro os2 i plan; simp [assignOrders]
  | cons o os1 ih =>
    intro os2 i plan
    rw [List.cons_append, assignOrders, assignOrders, ih]
    have h2 : i + 1 + os1.length = i + (o :: os1).length := by
      simp only [List.length_cons]; omega
    rw [h2]

theorem assignOrders_add_length (R : List Nat) :
    ∀ (os : List Nat) (i : Nat) (plan : Plan),
      assignOrders R (i + R.length) os plan = assignOrders R i os plan := by
  intro os
  induction os with
  | nil => intro i plan; simp [assignOrders]
  | cons o os ih =>
    intro i plan
    rw [assignOrders, assignOrders, Nat.add_mod_right]
    have h2 : i + R.length + 1 = i + 1 + R.length := by omega
    rw [h2, ih]

theorem innerPass_spec (R : List Nat) :
    ∀ (rs os : List Nat) (j : Nat) (plan : Plan),
      rs = R.drop j → j ≤ R.length →
      innerPass rs os plan =
        if os.length < rs.length then Sum.inl (assignOrders R j os plan)
        else Sum.inr (assignOrders R j (os.take rs.length) plan, os.drop rs.length) := by
  intro rs
  induction rs with
  | nil =>
    intro os j plan hdrop hj
    rw [innerPass, if_neg (by simp)]
    simp [assignOrders]
  | cons r0 rs ih =>
    intro os j plan hdrop hj
    have hjlt : j < R.length := by
      by_contra hge
      rw [List.drop_eq_nil_of_le (by omega)] at hdrop
      exact List.cons_ne_nil _ _ hdrop
    have hcons : R.drop j = R[j] :: R.drop (j + 1) := List.drop_eq_getElem_cons hjlt
    rw [hcons] at hdrop
    injection hdrop with hr0 hrs
    cases os with
    | nil =>
      rw [innerPass, if_pos (by simp)]
      simp [assignOrders]
    | cons o os' =>
      rw [innerPass]
      rw [ih os' (j + 1) (entryPush plan r0 o) hrs (by omega)]
      have hgd : R.getD (j % R.length) 0 = r0 := by
        rw [Nat.mod_eq_of_lt hjlt, List.getD_eq_getElem _ _ hjlt, hr0]
      by_cases hlt : os'.length < rs.length
      · rw [if_pos hlt, if_pos (by simpa using hlt)]
        rw [assignOrders, hgd]
      · rw [if_neg hlt, if_neg (by simpa using hlt)]
        simp only [List.length_cons, List.take_succ_cons, List.drop_succ_cons]
        rw [assignOrders, hgd]

theorem computePlanFuel_spec (R : List Nat) (hR : R ≠ []) :
    ∀ (fuel : Nat) (os : List Nat) (plan : Plan), os.length < fuel →
      computePlanFuel R fuel os plan = some (assignOrders R 0 os plan) := by
  intro fuel
  induction fuel with
  | zero => intro os plan h; exact absurd h (Nat.not_lt_zero _)
  | succ n ih =>
    intro os plan h
    have hip := innerPass_spec R R os 0 plan (by simp) (Nat.zero_le _)
    have hL : 0 < R.length := List.length_pos_of_ne_nil hR
    by_cases hlt : os.length < R.length
    · rw [if_pos hlt] at hip
      simp only [computePlanFuel, hip]
    · rw [if_neg hlt] at hip
      simp only [computePlanFuel, hip]
      have hlen : (os.drop R.length).length < n := by
        simp only [List.length_drop]; omega
      rw [ih _ _ hlen]
      congr 1
      have htd : os.take R.length ++ os.drop R.length = os := List.take_append_drop _ _
      conv_rhs => rw [← htd]
      rw [assignOrders_append]
      have hlen2 : (os.take R.length).length = R.length := by
        rw [List.length_take]; omega
      rw [hlen2]
      exact (assignOrders_add_length R _ 0 _).symm

/-- For a non-empty rider list the source loop terminates and the plan it
returns is the flattened round robin. -/
theorem compute_plan_eq (R O : List Nat) (hR : R ≠ []) :
    compute_plan R O = some (assignOrders R 0 O []) :=
  computePlanFuel_spec R hR _ O [] (Nat.lt_succ_self _)

/-- With an empty rider list the inner pass never executes, so the outer
loop makes no progress: no amount of fuel makes it return. -/
theorem computePlanFuel_nil (fuel : Nat) :
    ∀ (os : List Nat) (plan : Plan), computePlanFuel [] fuel os plan = none := by
  induction fuel with
  | zero => intro os plan; rfl
  | succ n ih =>
    intro os plan
    simp only [computePlanFuel, innerPass]
    exact ih os plan

theorem compute_plan_some_ne_nil {R O : List Nat} {p : Plan}
    (h : compute_plan R O = some p) : R ≠ [] := by
  intro hnil
  subst hnil
  rw [compute_plan, computePlanFuel_nil] at h
  exact Option.noConfusion h

theorem compute_plan_char {R O : List Nat} {p : Plan}
    (h : compute_plan R O = some p) : p = assignOrders R 0 O [] := by
  have hR := compute_plan_some_ne_nil h
  rw [compute_plan_eq R O hR] at h
  exact (Option.some_inj.1 h).symm

/-! ### Round-robin bucket sizes -/

theorem length_filter_range_mod {L : Nat} (hL : 0 < L) :
    ∀ (n j : Nat), j < L →
      ((List.range n).filter (fun t => t % L == j)).length =
        n / L + if j < n % L then 1 else 0 := by
  intro n
  induction n with
  | zero => intro j hj; simp
  | succ n ih =>
    intro j hj
    rw [List.range_succ, List.filter_append, List.length_append, ih j hj]
    have hr : n % L < L := Nat.mod_lt _ hL
    have hqr : L * (n / L) + n % L = n := Nat.div_add_mod n L
    have hs : ([n].filter (fun t => t % L == j)).length = if n % L = j then 1 else 0 := by
      by_cases hn : n % L = j
      · simp [List.filter_cons, hn]
      · simp [List.filter_cons, hn]
    rw [hs]
    rcases Nat.lt_or_ge (n % L + 1) L with hcase | hcase
    · have h1 : (n + 1) % L = n % L + 1 := by
        conv_lhs => rw [show n + 1 = L * (n / L) + (n % L + 1) by omega]
        rw [Nat.mul_add_mod, Nat.mod_eq_of_lt hcase]
      have h2 : (n + 1) / L = n / L := by
        conv_lhs => rw [show n + 1 = L * (n / L) + (n % L + 1) by omega]
        rw [Nat.mul_add_div hL, Nat.div_eq_of_lt hcase]
        omega
      rw [h1, h2]
      split_ifs <;> omega
    · have hmul : L * (n / L + 1) = L * (n / L) + L := by ring
      have h1 : (n + 1) % L = 0 := by
        conv_lhs => rw [show n + 1 = L * (n / L + 1) by rw [hmul]; omega]
        exact Nat.mul_mod_right _ _
      have h2 : (n + 1) / L = n / L + 1 := by
        conv_lhs => rw [show n + 1 = L * (n / L + 1) by rw [hmul]; omega]
        exact Nat.mul_div_cancel_left _ hL
      rw [h1, h2]
      split_ifs <;> omega

/-- The sequence of the rider at input position `j` in a computed plan:
exactly the orders at input positions congruent to `j` modulo the rider
count, in input order. -/
theorem lookupD_compute_plan {R O : List Nat} {p : Plan} (hp : compute_plan R O = some p)
    (hR : R.Nodup) {j : Nat} (hj : j < R.length) :
    lookupD p (R.get ⟨j, hj⟩) =
      ((List.range O.length).filter (fun t => t % R.length == j)).map
        (fun t => O.getD t 0) := by
  have hchar := compute_plan_char hp
  subst hchar
  have hL : 0 < R.length := Nat.lt_of_le_of_lt (Nat.zero_le j) hj
  rw [lookupD_assignOrders, rrTargets_eq_range]
  have hnil : lookupD [] (R.get ⟨j, hj⟩) = [] := rfl
  rw [hnil, List.nil_append, List.filter_map, List.map_map]
  have hpred : ∀ t ∈ List.range O.length,
      ((fun e : Nat × Nat => e.1 == R.get ⟨j, hj⟩) ∘
        (fun t => (R.getD ((0 + t) % R.length) 0, O.getD t 0))) t =
      (fun t => t % R.length == j) t := by
    intro t _
    simp only [Function.comp, Nat.zero_add]
    have hm : t % R.length < R.length := Nat.mod_lt _ hL
    rw [List.getD_eq_getElem _ _ hm]
    by_cases he : t % R.length = j
    · subst he
      simp [List.get_eq_getElem]
    · have hne : ¬ R[t % R.length] = R[j] :=
        fun hcontra => he ((hR.getElem_inj_iff).1 hcontra)
      simp [List.get_eq_getElem, hne, he]
  rw [List.filter_congr hpred]
  rfl

/-! ### Lemmas about the building blocks of `process_event` -/

theorem keys_updateSeq (plan : Plan) (k : Nat) (f : List Nat → List Nat) :
    (updateSeq plan k f).map Prod.fst = plan.map Prod.fst := by
  induction plan with
  | nil => rfl
  | cons e rest ih =>
    obtain ⟨k0, vs⟩ := e
    by_cases h : k0 = k
    · simp [updateSeq, h]
    · simp [updateSeq, h, ih]

theorem lookupSeq_updateSeq_self (plan : Plan) (k : Nat) (f : List Nat → List Nat) :
    lookupSeq (updateSeq plan k f) k = (lookupSeq plan k).map f := by
  induction plan with
  | nil => rfl
  | cons e rest ih =>
    obtain ⟨k0, vs⟩ := e
    by_cases h : k0 = k
    · rw [updateSeq, if_pos h, lookupSeq, if_pos h, lookupSeq, if_pos h]
      rfl
    · rw [updateSeq, if_neg h, lookupSeq, if_neg h, lookupSeq, if_neg h, ih]

theorem lookupSeq_updateSeq_ne (plan : Plan) {k k' : Nat} (h : k' ≠ k)
    (f : List Nat → List Nat) :
    lookupSeq (updateSeq plan k f) k' = lookupSeq plan k' := by
  induction plan with
  | nil => rfl
  | cons e rest ih =>
    obtain ⟨k0, vs⟩ := e
    by_cases h0 : k0 = k
    · have hne : k0 ≠ k' := by rw [h0]; exact Ne.symm h
      rw [updateSeq, if_pos h0, lookupSeq, if_neg hne, lookupSeq, if_neg hne]
    · rw [updateSeq, if_neg h0, lookupSeq, lookupSeq]
      by_cases h1 : k0 = k'
      · rw [if_pos h1, if_pos h1]
      · rw [if_neg h1, if_neg h1, ih]

theorem keys_pushToOther (plan : Plan) (r x : Nat) :
    (pushToOther plan r x).map Prod.fst = plan.map Prod.fst := by
  induction plan with
  | nil => rfl
  | cons e rest ih =>
    obtain ⟨k0, vs⟩ := e
    by_cases h : k0 = r
    · simp [pushToOther, h, ih]
    · simp [pushToOther, h]

theorem lookupSeq_pushToOther_r (plan : Plan) (r x : Nat) :
    lookupSeq (pushToOther plan r x) r = lookupSeq plan r := by
  induction plan with
  | nil => rfl
  | cons e rest ih =>
    obtain ⟨k0, vs⟩ := e
    by_cases h : k0 = r
    · rw [pushToOther, if_pos h, lookupSeq, if_pos h, lookupSeq, if_pos h]
    · rw [pushToOther, if_neg h, lookupSeq, if_neg h, lookupSeq, if_neg h]

theorem findOther_updateSeq (plan : Plan) (r : Nat) (f : List Nat → List Nat) :
    findOther (updateSeq plan r f) r = findOther plan r := by
  induction plan with
  | nil => rfl
  | cons e rest ih =>
    obtain ⟨k0, vs⟩ := e
    by_cases h : k0 = r
    · rw [updateSeq, if_pos h, findOther, if_pos h, findOther, if_pos h]
    · rw [updateSeq, if_neg h, findOther, if_neg h, findOther, if_neg h]

theorem findOther_spec {plan : Plan} {r k : Nat} {ks : List Nat}
    (h : findOther plan r = some (k, ks)) :
    k ≠ r ∧ lookupSeq plan k = some ks := by
  induction plan with
  | nil => exact Option.noConfusion h
  | cons e rest ih =>
    obtain ⟨k0, vs⟩ := e
    by_cases h0 : k0 = r
    · rw [findOther, if_pos h0] at h
      obtain ⟨hne, hlk⟩ := ih h
      refine ⟨hne, ?_⟩
      have hk0 : ¬ k0 = k := by rw [h0]; exact Ne.symm hne
      rw [lookupSeq, if_neg hk0, hlk]
    · rw [findOther, if_neg h0] at h
      injection h with hp
      injection hp with hk hks
      subst hk
      subst hks
      exact ⟨h0, by rw [lookupSeq, if_pos rfl]⟩

theorem findOther_isSome {plan : Plan} {r : Nat} (h : ∃ e ∈ plan, e.1 ≠ r) :
    ∃ k ks, findOther plan r = some (k, ks) := by
  induction plan with
  | nil =>
    obtain ⟨e, he, _⟩ := h
    exact absurd he (List.not_mem_nil e)
  | cons e rest ih =>
    obtain ⟨k0, vs⟩ := e
    by_cases h0 : k0 = r
    · rw [findOther, if_pos h0]
      apply ih
      obtain ⟨e, he, hne⟩ := h
      rcases List.mem_cons.1 he with h1 | h1
      · exact absurd h0 (by rw [h1] at hne; exact hne)
      · exact ⟨e, h1, hne⟩
    · exact ⟨k0, vs, by rw [findOther, if_neg h0]⟩

theorem pushToOther_of_none {plan : Plan} {r : Nat} (x : Nat)
    (h : findOther plan r = none) : pushToOther plan r x = plan := by
  induction plan with
  | nil => rfl
  | cons e rest ih =>
    obtain ⟨k0, vs⟩ := e
    by_cases h0 : k0 = r
    · rw [findOther, if_pos h0] at h
      rw [pushToOther, if_pos h0, ih h]
    · rw [findOther, if_neg h0] at h
      exact Option.noConfusion h

theorem pushToOther_spec {plan : Plan} {r k : Nat} {ks : List Nat} (x : Nat)
    (h : findOther plan r = some (k, ks)) :
    lookupSeq (pushToOther plan r x) k = some (ks ++ [x]) ∧
    ∀ k', k' ≠ k → lookupSeq (pushToOther plan r x) k' = lookupSeq plan k' := by
  induction plan with
  | nil => exact Option.noConfusion h
  | cons e rest ih =>
    obtain ⟨k0, vs⟩ := e
    by_cases h0 : k0 = r
    · rw [findOther, if_pos h0] at h
      obtain ⟨h1, h2⟩ := ih h
      have hkr : k ≠ r := (findOther_spec h).1
      have hk0k : ¬ k0 = k := by rw [h0]; exact Ne.symm hkr
      constructor
      · rw [pushToOther, if_pos h0, lookupSeq, if_neg hk0k, h1]
      · intro k' hk'
        rw [pushToOther, if_pos h0, lookupSeq, lookupSeq]
        by_cases h3 : k0 = k'
        · rw [if_pos h3, if_pos h3]
        · rw [if_neg h3, if_neg h3, h2 k' hk']
    · rw [findOther, if_neg h0] at h
      injection h with hp
      injection hp with hk hks
      subst hk
      subst hks
      constructor
      · rw [pushToOther, if_neg h0, lookupSeq, if_pos rfl]
      · intro k' hk'
        have hne : ¬ k0 = k' := Ne.symm hk'
        rw [pushToOther, if_neg h0, lookupSeq, if_neg hne, lookupSeq, if_neg hne]

/-- The sequence of any single rider contributes at most the total count of
any order id over the whole plan. -/
theorem count_lookup_le {plan : Plan} {k : Nat} {s : List Nat}
    (h : lookupSeq plan k = some s) (y : Nat) :
    s.count y ≤ (planOrders plan).count y := by
  induction plan with
  | nil => exact Option.noConfusion h
  | cons e rest ih =>
    obtain ⟨k0, vs⟩ := e
    rw [planOrders_cons, List.count_append]
    by_cases h0 : k0 = k
    · rw [lookupSeq, if_pos h0] at h
      injection h with hvs
      subst hvs
      omega
    · rw [lookupSeq, if_neg h0] at h
      have := ih h
      omega

theorem count_two_lookups_le {plan : Plan} {a b : Nat} {sa sb : List Nat}
    (ha : lookupSeq plan a = some sa) (hb : lookupSeq plan b = some sb)
    (hab : a ≠ b) (y : Nat) :
    sa.count y + sb.count y ≤ (planOrders plan).count y := by
  induction plan with
  | nil => exact Option.noConfusion ha
  | cons e rest ih =>
    obtain ⟨k0, vs⟩ := e
    rw [planOrders_cons, List.count_append]
    by_cases h0a : k0 = a
    · rw [lookupSeq, if_pos h0a] at ha
      injection ha with hvs
      subst hvs
      have h0b : ¬ k0 = b := by rw [h0a]; exact hab
      rw [lookupSeq, if_neg h0b] at hb
      have := count_lookup_le hb y
      omega
    · rw [lookupSeq, if_neg h0a] at ha
      by_cases h0b : k0 = b
      · rw [lookupSeq, if_pos h0b] at hb
        injection hb with hvs
        subst hvs
        have := count_lookup_le ha y
        omega
      · rw [lookupSeq, if_neg h0b] at hb
        have := ih ha hb
        omega

theorem count_planOrders_update_erase {plan : Plan} {r x : Nat} {os : List Nat}
    (h : lookupSeq plan r = some os) (hx : x ∈ os) (y : Nat) :
    (planOrders (updateSeq plan r (fun s => s.erase x))).count y +
        (if x = y then 1 else 0) = (planOrders plan).count y := by
  induction plan with
  | nil => exact Option.noConfusion h
  | cons e rest ih =>
    obtain ⟨k0, vs⟩ := e
    by_cases h0 : k0 = r
    · rw [lookupSeq, if_pos h0] at h
      injection h with hvs
      subst hvs
      rw [updateSeq, if_pos h0, planOrders_cons, planOrders_cons,
        List.count_append, List.count_append, List.count_erase]
      have hpos : 0 < vs.count x := List.count_pos_iff.2 hx
      by_cases hxy : x = y
      · subst hxy
        simp only [beq_self_eq_true, if_pos]
        omega
      · have hb1 : (x == y) = false := by simpa using hxy
        rw [hb1, if_neg hxy, if_neg Bool.false_ne_true]
        omega
    · rw [lookupSeq, if_neg h0] at h
      rw [updateSeq, if_neg h0, planOrders_cons, planOrders_cons,
        List.count_append, List.count_append]
      have := ih h
      omega

theorem count_planOrders_pushToOther {plan : Plan} {r k : Nat} {ks : List Nat} {x : Nat}
    (h : findOther plan r = some (k, ks)) (y : Nat) :
    (planOrders (pushToOther plan r x)).count y =
      (planOrders plan).count y + (if x = y then 1 else 0) := by
  induction plan with
  | nil => exact Option.noConfusion h
  | cons e rest ih =>
    obtain ⟨k0, vs⟩ := e
    by_cases h0 : k0 = r
    · rw [findOther, if_pos h0] at h
      rw [pushToOther, if_pos h0, planOrders_cons, planOrders_cons,
        List.count_append, List.count_append, ih h]
      omega
    · rw [pushToOther, if_neg h0, planOrders_cons, planOrders_cons,
        List.count_append, List.count_append, List.count_append,
        List.count_singleton]
      by_cases hxy : x = y
      · subst hxy
        simp only [beq_self_eq_true, if_pos]
        omega
      · have hb1 : (x == y) = false := by simpa using hxy
        rw [hb1, if_neg hxy, if_neg Bool.false_ne_true]
        omega

theorem lookupSeq_mapSnd (plan : Plan) (g : List Nat → List Nat) (k : Nat) :
    lookupSeq (plan.map (fun e => (e.1, g e.2))) k = (lookupSeq plan k).map g := by
  induction plan with
  | nil => rfl
  | cons e rest ih =>
    obtain ⟨k0, vs⟩ := e
    by_cases h : k0 = k
    · rw [List.map_cons, lookupSeq, if_pos h, lookupSeq, if_pos h]
      rfl
    · rw [List.map_cons, lookupSeq, if_neg h, lookupSeq, if_neg h, ih]

/-! ### Further helpers -/

theorem lookupSeq_of_mem {plan : Plan} (hnd : (plan.map Prod.fst).Nodup)
    {e : Nat × List Nat} (he : e ∈ plan) : lookupSeq plan e.1 = some e.2 := by
  induction plan with
  | nil => exact absurd he (List.not_mem_nil e)
  | cons e0 rest ih =>
    obtain ⟨k0, vs⟩ := e0
    rw [List.map_cons, List.nodup_cons] at hnd
    rcases List.mem_cons.1 he with h1 | h1
    · subst h1
      rw [lookupSeq, if_pos rfl]
    · have hk0 : ¬ k0 = e.1 := by
        intro hcontra
        exact hnd.1 (by rw [hcontra]; exact List.mem_map.2 ⟨e, h1, rfl⟩)
      rw [lookupSeq, if_neg hk0]
      exact ih hnd.2 h1

theorem mem_take_iff (l : List Nat) (n : Nat) (a : Nat) :
    a ∈ l.take n ↔ ∃ j, ∃ hj : j < l.length, j < n ∧ l[j] = a := by
  induction l generalizing n with
  | nil => simp
  | cons b l ih =>
    cases n with
    | zero => simp
    | succ n =>
      rw [List.take_succ_cons]
      simp only [List.mem_cons, ih]
      constructor
      · rintro (rfl | ⟨j, hj, hjn, rfl⟩)
        · exact ⟨0, by simp, by omega, rfl⟩
        · exact ⟨j + 1, by simpa using Nat.succ_lt_succ hj, by omega, by simp⟩
      · rintro ⟨j, hj, hjn, rfl⟩
        cases j with
        | zero => exact Or.inl rfl
        | succ j =>
          refine Or.inr ⟨j, ?_, by omega, by simp⟩
          simpa using Nat.lt_of_succ_lt_succ hj

theorem mem_planOrders {plan : Plan} {y : Nat} :
    y ∈ planOrders plan ↔ ∃ e ∈ plan, y ∈ e.2 := by
  rw [planOrders, List.mem_flatten]
  constructor
  · rintro ⟨l, hl, hyl⟩
    rcases List.mem_map.1 hl with ⟨e, he, rfl⟩
    exact ⟨e, he, hyl⟩
  · rintro ⟨e, he, hy⟩
    exact ⟨e.2, List.mem_map_of_mem Prod.snd he, hy⟩

theorem filter_bne_erase (x : Nat) (l : List Nat) :
    (l.erase x).filter (fun v => v != x) = l.filter (fun v => v != x) := by
  induction l with
  | nil => rfl
  | cons a l ih =>
    by_cases h : a = x
    · subst h
      simp [List.erase_cons]
    · simp [List.erase_cons, h, ih]

theorem filter_bne_idem (x : Nat) (l : List Nat) :
    (l.filter (fun v => v != x)).filter (fun v => v != x) =
      l.filter (fun v => v != x) :=
  List.filter_eq_self.2 (fun _ ha => (List.mem_filter.1 ha).2)

theorem filter_bne_append_self (x : Nat) (l : List Nat) :
    (l ++ [x]).filter (fun v => v != x) = l.filter (fun v => v != x) := by
  rw [List.filter_append]
  simp

/-- Every entry of a computed plan is the rider at some input position `j`,
holding exactly the round-robin bucket of that position. -/
theorem compute_plan_entry_shape {R O : List Nat} {p : Plan} (hR : R.Nodup)
    (hp : compute_plan R O = some p) {e : Nat × List Nat} (he : e ∈ p) :
    ∃ j, ∃ hj : j < R.length,
      e.1 = R.get ⟨j, hj⟩ ∧
      e.2 = ((List.range O.length).filter (fun t => t % R.length == j)).map
        (fun t => O.getD t 0) := by
  have hRn := compute_plan_some_ne_nil hp
  have hL : 0 < R.length := List.length_pos_of_ne_nil hRn
  have hchar := compute_plan_char hp
  have hnd : (p.map Prod.fst).Nodup := by
    rw [hchar]
    exact keysNodup_assignOrders R O 0 [] (by simp)
  have hlk := lookupSeq_of_mem hnd he
  have hkmem : e.1 ∈ p.map Prod.fst := List.mem_map_of_mem Prod.fst he
  rw [hchar, memKeys_assignOrders, rrTargets_eq_range, List.map_map] at hkmem
  rcases hkmem with h | h
  · exact absurd h (by simp)
  · rcases List.mem_map.1 h with ⟨t, _, hkt⟩
    have hjt : t % R.length < R.length := Nat.mod_lt _ hL
    refine ⟨t % R.length, hjt, ?_, ?_⟩
    · rw [← hkt]
      simp only [Function.comp, Nat.zero_add]
      rw [List.getD_eq_getElem _ _ hjt, List.get_eq_getElem]
    · have hchar2 := lookupD_compute_plan hp hR hjt
      have he1 : e.1 = R.get ⟨t % R.length, hjt⟩ := by
        rw [← hkt]
        simp only [Function.comp, Nat.zero_add]
        rw [List.getD_eq_getElem _ _ hjt, List.get_eq_getElem]
      rw [← he1] at hchar2
      rw [lookupD, hlk, Option.getD_some] at hchar2
      exact hchar2

/-! ### Claim theorems -/

/-- C1: the claim says `build` applied to an empty rider sequence returns the
error `EmptyRiderSet` and terminates.  The code has no error path at all:
on an empty rider list the inner pass of `compute_plan` never executes, so
the outer loop makes no progress and never returns, for every order
sequence and every fuel bound — the non-termination hazard of §9. -/
theorem C1_empty_riders_never_returns :
    ∀ (orders : List Nat) (fuel : Nat) (plan : Plan),
      computePlanFuel [] fuel orders plan = none ∧ compute_plan [] orders = none := by
  intro orders fuel plan
  exact ⟨computePlanFuel_nil fuel orders plan, computePlanFuel_nil _ orders []⟩

/-- C2 (counterexample): on the plan with hash iteration order
[(1, [10, 40]), (2, [20, 50]), (3, [30])], rider 3 holds the fewest orders,
but processing RiderRejected 1 10 pushes order 10 onto rider 2 — the first
rider other than 1 in iteration order — so rider 3's sequence stays [30],
not the claimed [30, 10]. -/
theorem C2_counterexample :
    process_event [(1, [10, 40]), (2, [20, 50]), (3, [30])] (.RiderRejected 1 10) =
        [(1, [40]), (2, [20, 50, 10]), (3, [30])] ∧
      lookupSeq (process_event [(1, [10, 40]), (2, [20, 50]), (3, [30])]
          (.RiderRejected 1 10)) 3 = some [30] := by
  decide

/-- C2 (amended): when rider `r` holds order `x` and the first entry with key
other than `r` in the plan's (arbitrary hash) iteration order is `(k, ks)`,
the rejection appends `x` to that rider `k`'s sequence — the first other
rider found, not the least-loaded one — removes the first occurrence of `x`
from `r`'s sequence, and leaves every other rider unchanged. -/
theorem C2_amended_first_other_rider {plan : Plan} {r x : Nat} {os : List Nat}
    {k : Nat} {ks : List Nat}
    (hr : lookupSeq plan r = some os) (hx : x ∈ os)
    (hf : findOther plan r = some (k, ks)) :
    k ≠ r ∧
    lookupSeq (process_event plan (.RiderRejected r x)) k = some (ks ++ [x]) ∧
    lookupSeq (process_event plan (.RiderRejected r x)) r = some (os.erase x) ∧
    ∀ k', k' ≠ k → k' ≠ r →
      lookupSeq (process_event plan (.RiderRejected r x)) k' = lookupSeq plan k' := by
  have hkr := (findOther_spec hf).1
  have hpe : process_event plan (.RiderRejected r x) =
      pushToOther (updateSeq plan r (fun s => s.erase x)) r x := by
    simp only [process_event, hr]
    rw [if_pos hx]
  have hfu : findOther (updateSeq plan r (fun s => s.erase x)) r = some (k, ks) := by
    rw [findOther_updateSeq, hf]
  obtain ⟨hpush1, hpush2⟩ := pushToOther_spec x hfu
  refine ⟨hkr, ?_, ?_, ?_⟩
  · rw [hpe, hpush1]
  · rw [hpe, lookupSeq_pushToOther_r, lookupSeq_updateSeq_self, hr]
    rfl
  · intro k' hk' hkr'
    rw [hpe, hpush2 k' hk', lookupSeq_updateSeq_ne _ hkr']

/-- C2 (amended), witnessed on the spec's concrete scenario. -/
theorem C2_amended_witness :
    2 ≠ 1 ∧
    lookupSeq (process_event [(1, [10, 40]), (2, [20, 50]), (3, [30])]
        (.RiderRejected 1 10)) 2 = some [20, 50, 10] ∧
    lookupSeq (process_event [(1, [10, 40]), (2, [20, 50]), (3, [30])]
        (.RiderRejected 1 10)) 1 = some [40] ∧
    ∀ k', k' ≠ 2 → k' ≠ 1 →
      lookupSeq (process_event [(1, [10, 40]), (2, [20, 50]), (3, [30])]
          (.RiderRejected 1 10)) k' =
        lookupSeq [(1, [10, 40]), (2, [20, 50]), (3, [30])] k' :=
  @C2_amended_first_other_rider [(1, [10, 40]), (2, [20, 50]), (3, [30])] 1 10 [10, 40]
    2 [20, 50] (by decide) (by decide) (by decide)

/-- C3: the claim says a rejection by the only rider of the plan returns the
error `NoAlternateRider` and leaves the plan unchanged.  The code instead
silently drops the order: on the single-rider plan [(1, [10])], processing
RiderRejected 1 10 yields [(1, [])] — no error, order 10 gone. -/
theorem C3_single_rider_drops_order :
    process_event [(1, [10])] (.RiderRejected 1 10) = [(1, [])] ∧
      10 ∉ planOrders (process_event [(1, [10])] (.RiderRejected 1 10)) := by
  decide

/-- C4: conservation — for unique-id non-empty inputs, the order ids across
the computed plan's sequences are exactly the input order ids, with no
duplicate anywhere in the plan. -/
theorem C4_conservation {R O : List Nat} {p : Plan}
    (hR : R.Nodup) (hO : O.Nodup) (hp : compute_plan R O = some p) :
    (∀ y, y ∈ planOrders p ↔ y ∈ O) ∧ (planOrders p).Nodup := by
  have hchar := compute_plan_char hp
  subst hchar
  have hperm := planOrders_assignOrders R O 0 []
  rw [planOrders_nil, List.nil_append] at hperm
  exact ⟨fun y => hperm.mem_iff, hperm.symm.nodup hO⟩

/-- C4, witnessed on the spec's concrete scenario. -/
theorem C4_witness :
    (∀ y, y ∈ planOrders [(1, [10, 40]), (2, [20, 50]), (3, [30])] ↔
        y ∈ [10, 20, 30, 40, 50]) ∧
      (planOrders [(1, [10, 40]), (2, [20, 50]), (3, [30])]).Nodup :=
  @C4_conservation [1, 2, 3] [10, 20, 30, 40, 50]
    [(1, [10, 40]), (2, [20, 50]), (3, [30])] (by decide) (by decide) (by decide)

/-- C5: determinism — the rider at input position `j` holds exactly the
orders at input positions congruent to `j` modulo the rider count, in
input order (the order at position `i` goes to the rider at position
`i mod |R|`, appended at the end). -/
theorem C5_round_robin_positions {R O : List Nat} {p : Plan}
    (hR : R.Nodup) (hO : O.Nodup) (hp : compute_plan R O = some p)
    {j : Nat} (hj : j < R.length) :
    lookupD p (R.get ⟨j, hj⟩) =
      ((List.range O.length).filter (fun t => t % R.length == j)).map
        (fun t => O.getD t 0) :=
  lookupD_compute_plan hp hR hj

/-- C5, witnessed for rider position 0 of the spec's concrete scenario. -/
theorem C5_witness :
    lookupD [(1, [10, 40]), (2, [20, 50]), (3, [30])] ([1, 2, 3].get ⟨0, by decide⟩) =
      ((List.range 5).filter (fun t => t % 3 == 0)).map
        (fun t => [10, 20, 30, 40, 50].getD t 0) :=
  @C5_round_robin_positions [1, 2, 3] [10, 20, 30, 40, 50]
    [(1, [10, 40]), (2, [20, 50]), (3, [30])] (by decide) (by decide) (by decide)
    0 (by decide)

/-- C6: rejection conservation — when order ids are unique across the plan,
rider `r` holds `x`, and another rider exists, the rejection removes `x`
from `r`'s sequence, places it in exactly one other rider's sequence, and
preserves the multiset of order ids of the whole plan. -/
theorem C6_rejection_conservation {plan : Plan} {r x : Nat} {os : List Nat}
    (hu : (planOrders plan).Nodup)
    (hr : lookupSeq plan r = some os) (hx : x ∈ os)
    (hother : ∃ e ∈ plan, e.1 ≠ r) :
    lookupSeq (process_event plan (.RiderRejected r x)) r = some (os.erase x) ∧
    x ∉ os.erase x ∧
    (∃ k, k ≠ r ∧
      (∃ s, lookupSeq (process_event plan (.RiderRejected r x)) k = some s ∧ x ∈ s) ∧
      ∀ k' s', k' ≠ r →
        lookupSeq (process_event plan (.RiderRejected r x)) k' = some s' →
        x ∈ s' → k' = k) ∧
    ∀ y, (planOrders (process_event plan (.RiderRejected r x))).count y =
      (planOrders plan).count y := by
  obtain ⟨k, ks, hf⟩ := findOther_isSome hother
  have hkr := (findOther_spec hf).1
  have hpe : process_event plan (.RiderRejected r x) =
      pushToOther (updateSeq plan r (fun s => s.erase x)) r x := by
    simp only [process_event, hr]
    rw [if_pos hx]
  have hfu : findOther (updateSeq plan r (fun s => s.erase x)) r = some (k, ks) := by
    rw [findOther_updateSeq, hf]
  obtain ⟨hpush1, hpush2⟩ := pushToOther_spec x hfu
  have hcount1 : os.count x = 1 := by
    have hle := count_lookup_le hr x
    have hpos : 0 < os.count x := List.count_pos_iff.2 hx
    have hnd1 := List.nodup_iff_count_le_one.1 hu x
    omega
  have hxe : x ∉ os.erase x := by
    intro hmem
    have hpos2 := List.count_pos_iff.2 hmem
    rw [List.count_erase] at hpos2
    simp only [beq_self_eq_true, if_pos] at hpos2
    omega
  refine ⟨?_, hxe, ?_, ?_⟩
  · rw [hpe, lookupSeq_pushToOther_r, lookupSeq_updateSeq_self, hr]
    rfl
  · refine ⟨k, hkr, ⟨ks ++ [x], by rw [hpe, hpush1], by simp⟩, ?_⟩
    intro k' s' hk'r hk's hxs
    by_contra hk'k
    rw [hpe, hpush2 k' hk'k, lookupSeq_updateSeq_ne _ hk'r] at hk's
    have h2 := count_two_lookups_le hk's hr hk'r x
    have hps' : 0 < s'.count x := List.count_pos_iff.2 hxs
    have hpos : 0 < os.count x := List.count_pos_iff.2 hx
    have hnd1 := List.nodup_iff_count_le_one.1 hu x
    omega
  · intro y
    have h1 := count_planOrders_update_erase hr hx y
    have h2 := count_planOrders_pushToOther (x := x) hfu y
    rw [hpe, h2]
    omega

/-- C6, witnessed on a two-rider plan. -/
theorem C6_witness :
    lookupSeq (process_event [(1, [10]), (2, [20])] (.RiderRejected 1 10)) 1 =
        some ([10].erase 10) ∧
    10 ∉ [10].erase 10 ∧
    (∃ k, k ≠ 1 ∧
      (∃ s, lookupSeq (process_event [(1, [10]), (2, [20])]
          (.RiderRejected 1 10)) k = some s ∧ 10 ∈ s) ∧
      ∀ k' s', k' ≠ 1 →
        lookupSeq (process_event [(1, [10]), (2, [20])] (.RiderRejected 1 10)) k' =
          some s' → 10 ∈ s' → k' = k) ∧
    ∀ y, (planOrders (process_event [(1, [10]), (2, [20])]
        (.RiderRejected 1 10))).count y = (planOrders [(1, [10]), (2, [20])]).count y :=
  @C6_rejection_conservation [(1, [10]), (2, [20])] 1 10 [10]
    (by decide) (by decide) (by decide) (by decide)

/-- C7 (counterexample): fairness is not preserved by `process_event`.  The
plan [(1, [10, 30]), (2, [20])] is produced by `compute_plan` from
unique-id inputs and satisfies the fairness invariant, but canceling order
20 leaves rider 2 with no orders while rider 1 holds two. -/
theorem C7_counterexample :
    compute_plan [1, 2] [10, 20, 30] = some [(1, [10, 30]), (2, [20])] ∧
    FairPlan [(1, [10, 30]), (2, [20])] ∧
    process_event [(1, [10, 30]), (2, [20])] (.OrderCanceled 20) =
      [(1, [10, 30]), (2, [])] ∧
    ¬ FairPlan [(1, [10, 30]), (2, [])] := by
  refine ⟨by decide, by decide, by decide, by decide⟩

/-- C7 (amended): the fairness invariant holds for every plan produced by
`compute_plan` from unique-id non-empty inputs; it is not preserved by
`process_event` (see the counterexample). -/
theorem C7_amended_build_fair {R O : List Nat} {p : Plan}
    (hR : R.Nodup) (hO : O.Nodup) (hp : compute_plan R O = some p) :
    FairPlan p := by
  intro e1 he1 e2 he2
  obtain ⟨j1, hj1, _, hlen1⟩ := compute_plan_entry_shape hR hp he1
  obtain ⟨j2, hj2, _, hlen2⟩ := compute_plan_entry_shape hR hp he2
  have hL : 0 < R.length := Nat.lt_of_le_of_lt (Nat.zero_le _) hj1
  rw [hlen1, hlen2, List.length_map, List.length_map,
    length_filter_range_mod hL _ _ hj1, length_filter_range_mod hL _ _ hj2]
  split_ifs <;> omega

/-- C7 (amended), witnessed on the spec's concrete scenario. -/
theorem C7_amended_witness :
    FairPlan [(1, [10, 40]), (2, [20, 50]), (3, [30])] :=
  @C7_amended_build_fair [1, 2, 3] [10, 20, 30, 40, 50]
    [(1, [10, 40]), (2, [20, 50]), (3, [30])] (by decide) (by decide) (by decide)

/-- C8 (counterexample): building from riders [1, 2] and the single order
[10] yields the plan [(1, [10])]: rider 2 received no order and is absent
from the plan's keys, not mapped to an empty sequence as the claim says. -/
theorem C8_counterexample :
    compute_plan [1, 2] [10] = some [(1, [10])] ∧
      2 ∉ ([(1, [10])] : Plan).map Prod.fst := by
  decide

/-- C8 (amended): the key set of a computed plan is exactly the set of the
first `min |O| |R|` rider ids — the riders that received at least one
order.  A rider that received no order is absent from the plan; no entry
of a computed plan ever has an empty sequence. -/
theorem C8_amended_keys {R O : List Nat} {p : Plan}
    (hR : R.Nodup) (hO : O.Nodup) (hp : compute_plan R O = some p) :
    (∀ k, k ∈ p.map Prod.fst ↔ k ∈ R.take O.length) ∧
    ∀ e ∈ p, e.2 ≠ [] := by
  have hRn := compute_plan_some_ne_nil hp
  have hL : 0 < R.length := List.length_pos_of_ne_nil hRn
  have hchar := compute_plan_char hp
  subst hchar
  constructor
  · intro k
    rw [memKeys_assignOrders, rrTargets_eq_range, List.map_map, mem_take_iff]
    constructor
    · rintro (h | h)
      · exact absurd h (by simp)
      · rcases List.mem_map.1 h with ⟨t, ht, hkt⟩
        rw [List.mem_range] at ht
        have hjt : t % R.length < R.length := Nat.mod_lt _ hL
        have hle : t % R.length ≤ t := Nat.mod_le t _
        refine ⟨t % R.length, hjt, by omega, ?_⟩
        rw [← hkt]
        simp only [Function.comp, Nat.zero_add]
        rw [List.getD_eq_getElem _ _ hjt]
    · rintro ⟨j, hjR, hjO, hjk⟩
      refine Or.inr (List.mem_map.2 ⟨j, List.mem_range.2 hjO, ?_⟩)
      simp only [Function.comp, Nat.zero_add]
      rw [Nat.mod_eq_of_lt hjR, List.getD_eq_getElem _ _ hjR, hjk]
  · exact nonempty_assignOrders R O 0 [] (by simp)

/-- C8 (amended), witnessed: riders [1, 2] with single order [10] give the
key set containing 1 and not 2, and no empty sequence. -/
theorem C8_amended_witness :
    (∀ k, k ∈ ([(1, [10])] : Plan).map Prod.fst ↔ k ∈ [1, 2].take 1) ∧
    ∀ e ∈ ([(1, [10])] : Plan), e.2 ≠ [] :=
  @C8_amended_keys [1, 2] [10] [(1, [10])] (by decide) (by decide) (by decide)

/-- C9: cancellation — canceling `x` filters `x` out of every sequence
(no-op on riders not holding it and when `x` is absent), the surviving
order ids are exactly the prior ones other than `x`, and canceling twice
equals canceling once. -/
theorem C9_cancel_semantics {plan : Plan} (x : Nat)
    (hu : (planOrders plan).Nodup) :
    (∀ k s, lookupSeq plan k = some s →
      lookupSeq (process_event plan (.OrderCanceled x)) k =
        some (s.filter (fun v => v != x))) ∧
    (∀ k s, lookupSeq plan k = some s → x ∉ s →
      lookupSeq (process_event plan (.OrderCanceled x)) k = some s) ∧
    (∀ y, y ∈ planOrders (process_event plan (.OrderCanceled x)) ↔
      y ∈ planOrders plan ∧ y ≠ x) ∧
    process_event (process_event plan (.OrderCanceled x)) (.OrderCanceled x) =
      process_event plan (.OrderCanceled x) := by
  have hpe : ∀ q : Plan, process_event q (.OrderCanceled x) =
      q.map (fun e => (e.1, e.2.filter (fun v => v != x))) := fun q => rfl
  refine ⟨?_, ?_, ?_, ?_⟩
  · intro k s hk
    rw [hpe, lookupSeq_mapSnd, hk]
    rfl
  · intro k s hk hxs
    rw [hpe, lookupSeq_mapSnd, hk]
    have hfil : s.filter (fun v => v != x) = s := by
      rw [List.filter_eq_self]
      intro a ha
      simp only [bne_iff_ne, ne_eq]
      intro he
      exact hxs (he ▸ ha)
    simp [hfil]
  · intro y
    rw [hpe, mem_planOrders, mem_planOrders]
    constructor
    · rintro ⟨e, he, hy⟩
      rcases List.mem_map.1 he with ⟨e0, he0, rfl⟩
      rw [List.mem_filter] at hy
      exact ⟨⟨e0, he0, hy.1⟩, by simpa using hy.2⟩
    · rintro ⟨⟨e0, he0, hy⟩, hyx⟩
      refine ⟨(e0.1, e0.2.filter (fun v => v != x)), List.mem_map_of_mem _ he0, ?_⟩
      exact List.mem_filter.2 ⟨hy, by simpa using hyx⟩
  · rw [hpe, hpe, List.map_map]
    refine List.map_congr_left ?_
    intro e _
    simp only [Function.comp]
    rw [filter_bne_idem]

/-- C9, witnessed on a two-rider plan with `x = 10`. -/
theorem C9_witness :
    (∀ k s, lookupSeq [(1, [10]), (2, [20])] k = some s →
      lookupSeq (process_event [(1, [10]), (2, [20])] (.OrderCanceled 10)) k =
        some (s.filter (fun v => v != 10))) ∧
    (∀ k s, lookupSeq [(1, [10]), (2, [20])] k = some s → 10 ∉ s →
      lookupSeq (process_event [(1, [10]), (2, [20])] (.OrderCanceled 10)) k = some s) ∧
    (∀ y, y ∈ planOrders (process_event [(1, [10]), (2, [20])] (.OrderCanceled 10)) ↔
      y ∈ planOrders [(1, [10]), (2, [20])] ∧ y ≠ 10) ∧
    process_event (process_event [(1, [10]), (2, [20])] (.OrderCanceled 10))
        (.OrderCanceled 10) =
      process_event [(1, [10]), (2, [20])] (.OrderCanceled 10) :=
  @C9_cancel_semantics [(1, [10]), (2, [20])] 10 (by decide)

/-- C10: frame — `process_event` never changes the key set of the plan, and
within every rider's sequence the relative order of the ids other than the
event's order id is untouched: each rider's new sequence is the old one
unchanged, or with the first occurrence of the event's order id erased, or
with that id appended at the end (rejection target), or with all its
occurrences filtered out (cancellation). -/
theorem C10_frame_preservation (plan : Plan) (e : Event) :
    (process_event plan e).map Prod.fst = plan.map Prod.fst ∧
    (∀ k, (lookupD (process_event plan e) k).filter (fun v => v != eventOrder e) =
      (lookupD plan k).filter (fun v => v != eventOrder e)) ∧
    (∀ k, lookupD (process_event plan e) k = lookupD plan k ∨
      lookupD (process_event plan e) k = (lookupD plan k).erase (eventOrder e) ∨
      lookupD (process_event plan e) k = lookupD plan k ++ [eventOrder e] ∨
      lookupD (process_event plan e) k =
        (lookupD plan k).filter (fun v => v != eventOrder e)) := by
  cases e with
  | OrderCanceled x =>
    have hpe : process_event plan (.OrderCanceled x) =
        plan.map (fun e => (e.1, e.2.filter (fun v => v != x))) := rfl
    have hlk : ∀ k, lookupD (process_event plan (.OrderCanceled x)) k =
        (lookupD plan k).filter (fun v => v != x) := by
      intro k
      rw [lookupD, lookupD, hpe, lookupSeq_mapSnd]
      cases lookupSeq plan k with
      | none => rfl
      | some s => rfl
    refine ⟨?_, ?_, ?_⟩
    · rw [hpe, List.map_map]
      exact List.map_congr_left (fun e _ => rfl)
    · intro k
      rw [hlk k, eventOrder, filter_bne_idem]
    · intro k
      exact Or.inr (Or.inr (Or.inr (hlk k)))
  | RiderRejected r x =>
    cases hlkr : lookupSeq plan r with
    | none =>
      have hpe : process_event plan (.RiderRejected r x) = plan := by
        simp only [process_event, hlkr]
      rw [hpe]
      exact ⟨rfl, fun k => rfl, fun k => Or.inl rfl⟩
    | some os =>
      by_cases hmem : x ∈ os
      · have hpe : process_event plan (.RiderRejected r x) =
            pushToOther (updateSeq plan r (fun s => s.erase x)) r x := by
          simp only [process_event, hlkr]
          rw [if_pos hmem]
        have hkeys : (process_event plan (.RiderRejected r x)).map Prod.fst =
            plan.map Prod.fst := by
          rw [hpe, keys_pushToOther, keys_updateSeq]
        have hdis : ∀ k, lookupD (process_event plan (.RiderRejected r x)) k =
            lookupD plan k ∨
          lookupD (process_event plan (.RiderRejected r x)) k =
            (lookupD plan k).erase x ∨
          lookupD (process_event plan (.RiderRejected r x)) k =
            lookupD plan k ++ [x] := by
          intro k
          cases hfo : findOther plan r with
          | none =>
            have hfu : findOther (updateSeq plan r (fun s => s.erase x)) r = none := by
              rw [findOther_updateSeq, hfo]
            have hpp : process_event plan (.RiderRejected r x) =
                updateSeq plan r (fun s => s.erase x) := by
              rw [hpe, pushToOther_of_none x hfu]
            by_cases hk : k = r
            · subst hk
              refine Or.inr (Or.inl ?_)
              rw [lookupD, lookupD, hpp, lookupSeq_updateSeq_self, hlkr]
              rfl
            · refine Or.inl ?_
              rw [lookupD, lookupD, hpp, lookupSeq_updateSeq_ne _ hk]
          | some e0 =>
            obtain ⟨k0, ks0⟩ := e0
            have hk0r := (findOther_spec hfo).1
            have hfu : findOther (updateSeq plan r (fun s => s.erase x)) r =
                some (k0, ks0) := by
              rw [findOther_updateSeq, hfo]
            obtain ⟨hpush1, hpush2⟩ := pushToOther_spec x hfu
            by_cases hk : k = r
            · subst hk
              refine Or.inr (Or.inl ?_)
              rw [lookupD, lookupD, hpe, lookupSeq_pushToOther_r,
                lookupSeq_updateSeq_self, hlkr]
              rfl
            · by_cases hk0 : k = k0
              · subst hk0
                refine Or.inr (Or.inr ?_)
                have hlk0 := (findOther_spec hfo).2
                rw [lookupD, lookupD, hpe, hpush1, hlk0]
                rfl
              · refine Or.inl ?_
                rw [lookupD, lookupD, hpe, hpush2 k hk0,
                  lookupSeq_updateSeq_ne _ hk]
        refine ⟨hkeys, ?_, ?_⟩
        · intro k
          rcases hdis k with h | h | h
          · rw [h]
          · rw [h, eventOrder, filter_bne_erase]
          · rw [h, eventOrder, filter_bne_append_self]
        · intro k
          rcases hdis k with h | h | h
          · exact Or.inl h
          · exact Or.inr (Or.inl h)
          · exact Or.inr (Or.inr (Or.inl h))
      · have hpe : process_event plan (.RiderRejected r x) = plan := by
          simp only [process_event, hlkr]
          rw [if_neg hmem]
        rw [hpe]
        exact ⟨rfl, fun k => rfl, fun k => Or.inl rfl⟩

example : compute_plan [1, 2, 3] [10, 20, 30, 40, 50] =
    some [(1, [10, 40]), (2, [20, 50]), (3, [30])] := by decide

example : process_event [(1, [10, 40]), (2, [20, 50]), (3, [30])] (.RiderRejected 1 10) =
    [(1, [40]), (2, [20, 50, 10]), (3, [30])] := by decide

example : process_event [(1, [40]), (2, [20, 50, 10]), (3, [30])] (.OrderCanceled 50) =
    [(1, [40]), (2, [20, 10]), (3, [30])] := by decide

example : process_event [(1, [10])] (.RiderRejected 1 10) = [(1, [])] := by decide

example : compute_plan [] [10] = none := by decide

example : compute_plan [1, 2] [10] = some [(1, [10])] := by decide
